import Mathlib

/-!
Shallow embedding of `src/main.rs` of i3-autonamer: the layout-tree data
model (`Node`), the tree navigator (`get_leaf_content_nodes`,
`get_nodes_of_type`, `get_workspace_nodes`), the label derivation
(`get_workspace_name`) and the rename planner
(`get_workspace_rename_commands`).

Rust panics (the `assert!` in `get_workspace_nodes` and the `.unwrap()` on
the optional workspace name in `get_workspace_rename_commands`) are
modelled as `Except Fault` errors; a `.ok` result corresponds to a normal
return, an `.error` to a panic.  The `HashSet` used for label
deduplication in `get_workspace_name` has an unspecified iteration order
in Rust; it is modelled here by a deterministic first-occurrence
deduplication (`hsDedup`), which realises the same set of labels.
-/

/-- Node type tags, after `tokio_i3ipc::reply::NodeType`. -/
inductive NodeType where
  | Root
  | Output
  | Con
  | FloatingCon
  | Workspace
  | Dockarea
deriving DecidableEq, Repr

/-- The `window_properties` record of a node; only the `class` field is
read by the program. -/
structure WindowProperties where
  «class» : Option String
deriving DecidableEq, Repr

/-- A layout-tree node, after `tokio_i3ipc::reply::Node`, restricted to
the fields the program reads: `node_type`, `name`, `num`,
`window_properties` and the ordered `nodes` children list. -/
inductive Node where
  | mk (node_type : NodeType) (name : Option String) (num : Option Int)
       (window_properties : Option WindowProperties) (nodes : List Node)
deriving Repr

def Node.node_type : Node → NodeType
  | .mk t _ _ _ _ => t

def Node.name : Node → Option String
  | .mk _ nm _ _ _ => nm

def Node.num : Node → Option Int
  | .mk _ _ n _ _ => n

def Node.window_properties : Node → Option WindowProperties
  | .mk _ _ _ wp _ => wp

def Node.nodes : Node → List Node
  | .mk _ _ _ _ l => l

theorem Node.sizeOf_nodes_lt (node : Node) : sizeOf node.nodes < sizeOf node := by
  cases node with
  | mk t nm n wp l => simp [Node.nodes]

theorem Node.sizeOf_lt_of_mem {c node : Node} (h : c ∈ node.nodes) :
    sizeOf c < sizeOf node :=
  Nat.lt_trans (List.sizeOf_lt_of_mem h) node.sizeOf_nodes_lt

/-- Embeds `fn get_nodes_of_type(node, node_type)`: filters the immediate
children by tag. -/
def get_nodes_of_type (node : Node) (node_type : NodeType) : List Node :=
  node.nodes.filter (fun n => n.node_type = node_type)

/-- Embeds `fn get_leaf_content_nodes(node)`: over the `Con`-typed
children, a child with no children is itself collected, otherwise the
function recurses into it. -/
def get_leaf_content_nodes (node : Node) : List Node :=
  (get_nodes_of_type node NodeType.Con).attach.flatMap
    (fun n =>
      if n.1.nodes.length = 0 then [n.1] else get_leaf_content_nodes n.1)
termination_by sizeOf node
decreasing_by
  exact Node.sizeOf_lt_of_mem (List.mem_of_mem_filter n.2)

theorem get_leaf_content_nodes_def (node : Node) :
    get_leaf_content_nodes node =
      (get_nodes_of_type node NodeType.Con).flatMap
        (fun n => if n.nodes.length = 0 then [n] else get_leaf_content_nodes n) := by
  conv_lhs => rw [get_leaf_content_nodes]
  conv_rhs =>
    rw [← List.attach_map_subtype_val (get_nodes_of_type node NodeType.Con),
        List.flatMap_map]

/-- The lookup table type, `type Lookup = HashMap<String, String>`,
modelled as an association list with distinct keys. -/
def Lookup := List (String × String)

/-- Models `HashMap::get`. -/
def Lookup.get (lookup : Lookup) (k : String) : Option String :=
  (List.find? (fun p => p.1 = k) lookup).map Prod.snd

/-- The raw label sequence of a workspace: for each leaf content node, in
order, its `window_properties.class` looked up in the table, absent
classes and missed lookups discarded (the `filter_map` body in
`get_workspace_name`). -/
def rawLabels (workspace_node : Node) (lookup : Lookup) : List String :=
  (get_leaf_content_nodes workspace_node).filterMap
    (fun n => (n.window_properties.bind (fun wp => wp.«class»)).bind lookup.get)

/-- Deterministic model of collecting into a `HashSet` and iterating:
first-occurrence deduplication. -/
def hsDedup (l : List String) : List String :=
  l.foldl (fun acc x => if x ∈ acc then acc else acc ++ [x]) []

/-- Embeds `fn get_workspace_name(workspace_node, lookup)`: the
deduplicated labels joined with a single space. -/
def get_workspace_name (workspace_node : Node) (lookup : Lookup) : String :=
  String.intercalate " " (hsDedup (rawLabels workspace_node lookup))

/-- Panic model: `invalidTree` for the `assert!` in `get_workspace_nodes`,
`missingName` for the `.unwrap()` of a workspace's optional name. -/
inductive Fault where
  | invalidTree
  | missingName
deriving DecidableEq, Repr

/-- Embeds `fn get_workspace_nodes(root)`: asserts `root.node_type == Root`
(modelled as the `invalidTree` fault), then chains
Output-children → their Con-children → their Workspace-children. -/
def get_workspace_nodes (root : Node) : Except Fault (List Node) :=
  if root.node_type = NodeType.Root then
    .ok (((get_nodes_of_type root NodeType.Output).flatMap
            (fun n => get_nodes_of_type n NodeType.Con)).flatMap
          (fun n => get_nodes_of_type n NodeType.Workspace))
  else
    .error .invalidTree

/-- The lookup table hard-coded in `get_workspace_rename_commands`. -/
def theLookup : Lookup :=
  [("Alacritty", "A"), ("Joplin", "J"), ("Firefox", "F"), ("Code", "C")]

/-- The `full_name` computation: `"{num}: {name}"` when the derived name
is non-empty, `"{num}"` otherwise. -/
def full_name (num : Int) (name : String) : String :=
  if name.length > 0 then toString num ++ ": " ++ name else toString num

/-- The `format!("rename workspace \"{}\" to \"{}\"", old, new)` string. -/
def renameCmd (old new : String) : String :=
  "rename workspace \"" ++ old ++ "\" to \"" ++ new ++ "\""

/-- The body of the `filter_map` in `get_workspace_rename_commands`, for
one workspace node: no directive when `num` is absent or `< 1`, the
`missingName` panic when the workspace has no name, otherwise one rename
directive. -/
def workspaceDirectives (workspace_node : Node) : Except Fault (List String) :=
  match workspace_node.num with
  | none => .ok []
  | some num =>
    if num < 1 then .ok []
    else
      let name := get_workspace_name workspace_node theLookup
      match workspace_node.name with
      | none => .error .missingName
      | some old => .ok [renameCmd old (full_name num name)]

/-- Left-to-right effectful map, as the lazy `filter_map(...).collect()`
evaluates the closure (the first panic aborts the computation). -/
def exceptMapM {α β ε : Type} (f : α → Except ε β) : List α → Except ε (List β)
  | [] => .ok []
  | x :: xs => do
    let y ← f x
    let ys ← exceptMapM f xs
    return y :: ys

/-- Embeds `async fn get_workspace_rename_commands(tree)`: the rename
directives for all qualifying workspaces, in workspace-traversal order. -/
def get_workspace_rename_commands (tree : Node) : Except Fault (List String) := do
  let ws ← get_workspace_nodes tree
  let css ← exceptMapM workspaceDirectives ws
  return css.flatten

/-- The workspace numbers that produce directives, in plan order: the
traversal's `num` sequence restricted to numbered (`num ≥ 1`) workspaces. -/
def planNums (tree : Node) : Except Fault (List Int) :=
  (get_workspace_nodes tree).map
    (fun ws => ws.filterMap (fun w => w.num.bind (fun n => if n < 1 then none else some n)))

/-- The per-workspace contribution to `planNums`. -/
def numFilter (w : Node) : Option Int :=
  w.num.bind (fun n => if n < 1 then none else some n)

/-- The directive a workspace contributes to a successfully computed
plan, paired with the producing workspace number: `none` for an
unnumbered (`num` absent or `< 1`) or unnamed workspace, otherwise the
number and the rename-command string. -/
def directivePair (w : Node) : Option (Int × String) :=
  w.num.bind (fun n =>
    if n < 1 then none
    else w.name.map
      (fun old => (n, renameCmd old (full_name n (get_workspace_name w theLookup)))))

/-- Reachability through a non-empty descending chain of `Con`-typed
children: the nodes `get_leaf_content_nodes` can ever visit below a
node. -/
inductive ConDesc : Node → Node → Prop where
  | child {n c : Node} : c ∈ n.nodes → c.node_type = NodeType.Con → ConDesc n c
  | step {n c d : Node} : c ∈ n.nodes → c.node_type = NodeType.Con →
      ConDesc c d → ConDesc n d

/-- Modelled from the spec: the claim's reading of the leaf collector —
every `Con`-typed node with zero children anywhere in the subtree
strictly below the given node, in depth-first document order.  Kept
separate from `get_leaf_content_nodes` so the two can be compared. -/
def specSubtreeConLeaves (node : Node) : List Node :=
  node.nodes.attach.flatMap
    (fun c =>
      (if c.1.node_type = NodeType.Con ∧ c.1.nodes.length = 0 then [c.1] else [])
        ++ specSubtreeConLeaves c.1)
termination_by sizeOf node
decreasing_by
  exact Node.sizeOf_lt_of_mem c.2

/-- The leaf collector restated from the spec side for comparison with
`get_leaf_content_nodes`: depth-first over the children in their original
order, descending only through `Con`-typed children and collecting the
childless ones. -/
def specConChainLeaves (node : Node) : List Node :=
  node.nodes.attach.flatMap
    (fun c =>
      if c.1.node_type = NodeType.Con then
        (if c.1.nodes.isEmpty then [c.1] else specConChainLeaves c.1)
      else [])
termination_by sizeOf node
decreasing_by
  exact Node.sizeOf_lt_of_mem c.2

/-- Strong recursion over a node and its children list. -/
def Node.strongRec {P : Node → Prop}
    (ih : ∀ node, (∀ c ∈ node.nodes, P c) → P node) : ∀ node, P node :=
  fun node => ih node (fun c _hc => Node.strongRec ih c)
termination_by node => sizeOf node
decreasing_by
  exact Node.sizeOf_lt_of_mem _hc

/-! Concrete layout trees used as test inputs, counterexamples and
witnesses. -/

/-- A leaf content node backed by a Firefox window. -/
def leafFirefox : Node := .mk .Con none none (some ⟨some "Firefox"⟩) []

/-- Workspace 2, currently named "2", holding one Firefox leaf. -/
def ws2 : Node := .mk .Workspace (some "2") (some 2) none [leafFirefox]

/-- The tree of the end-to-end example:
Root → Output → Con → `ws2`. -/
def tree3 : Node :=
  .mk .Root none none none [.mk .Output none none none [.mk .Con none none none [ws2]]]

/-- Workspace 1, currently named "1", with no windows. -/
def wsN1 : Node := .mk .Workspace (some "1") (some 1) none []

/-- Workspace 2, currently named "2", with no windows. -/
def wsN2 : Node := .mk .Workspace (some "2") (some 2) none []

/-- A tree whose traversal meets workspace 2 before workspace 1. -/
def tree21 : Node :=
  .mk .Root none none none [.mk .Output none none none [.mk .Con none none none [wsN2, wsN1]]]

/-- A tree whose traversal meets workspace 1 before workspace 2. -/
def tree12 : Node :=
  .mk .Root none none none [.mk .Output none none none [.mk .Con none none none [wsN1, wsN2]]]

/-- A tree holding only the windowless workspace `wsN1`, whose current
name "1" already equals the computed name. -/
def treeEq : Node :=
  .mk .Root none none none [.mk .Output none none none [.mk .Con none none none [wsN1]]]

/-- Workspace with `num = 0` that nevertheless contains a window. -/
def ws0 : Node := .mk .Workspace (some "0") (some 0) none [leafFirefox]

/-- A tree with no numbered (`num ≥ 1`) workspace. -/
def treeZero : Node :=
  .mk .Root none none none [.mk .Output none none none [.mk .Con none none none [ws0]]]

/-- Workspace with two Firefox leaves, both mapping to the label "F". -/
def wsFF : Node := .mk .Workspace (some "3") (some 3) none [leafFirefox, leafFirefox]

/-- Numbered workspace whose optional `name` is absent. -/
def wsAnon : Node := .mk .Workspace none (some 1) none []

/-- A tree holding one numbered workspace with no name. -/
def treeNoName : Node :=
  .mk .Root none none none [.mk .Output none none none [.mk .Con none none none [wsAnon]]]

/-- A workspace whose only leaf `Con` node sits below a non-`Con` child,
so the leaf lies in the subtree but not behind a `Con`-only chain. -/
def wsHidden : Node :=
  .mk .Workspace (some "4") (some 4) none [.mk .FloatingCon none none none [leafFirefox]]

theorem exceptMapM_ok_forall {α β ε : Type} {f : α → Except ε β} :
    ∀ {l : List α} {l' : List β}, exceptMapM f l = .ok l' →
      ∀ x ∈ l, ∃ y ∈ l', f x = .ok y := by
  intro l
  induction l with
  | nil => intro l' h x hx; cases hx
  | cons a as ih =>
    intro l' h x hx
    rw [exceptMapM] at h
    cases hfa : f a with
    | error e => rw [hfa] at h; cases h
    | ok y =>
      rw [hfa] at h
      cases hrest : exceptMapM f as with
      | error e => rw [hrest] at h; cases h
      | ok ys =>
        rw [hrest] at h
        simp only [Except.bind, pure, Except.pure] at h
        cases h
        rcases List.mem_cons.mp hx with rfl | hx'
        · exact ⟨y, List.mem_cons_self _ _, hfa⟩
        · rcases ih hrest x hx' with ⟨y', hy', hfy'⟩
          exact ⟨y', List.mem_cons_of_mem _ hy', hfy'⟩

theorem exceptMapM_error_of_mem {α β ε : Type} {f : α → Except ε β} {e : ε} :
    ∀ {l : List α}, (∀ x ∈ l, (∃ v, f x = .ok v) ∨ f x = .error e) →
      ∀ x₀ ∈ l, f x₀ = .error e → exceptMapM f l = .error e := by
  intro l
  induction l with
  | nil => intro _ x₀ hx₀; cases hx₀
  | cons a as ih =>
    intro hall x₀ hx₀ herr
    rw [exceptMapM]
    rcases List.mem_cons.mp hx₀ with rfl | hx₀'
    · rw [herr]; rfl
    · rcases hall a (List.mem_cons_self _ _) with ⟨v, hv⟩ | hv
      · rw [hv]
        have : exceptMapM f as = .error e :=
          ih (fun x hx => hall x (List.mem_cons_of_mem _ hx)) x₀ hx₀' herr
        rw [this]; rfl
      · rw [hv]; rfl

theorem exceptMapM_nil_flatten {α β ε : Type} {f : α → Except ε (List β)} :
    ∀ {l : List α}, (∀ x ∈ l, f x = .ok []) →
      ∃ css, exceptMapM f l = .ok css ∧ css.flatten = [] := by
  intro l
  induction l with
  | nil => exact fun _ => ⟨[], rfl, rfl⟩
  | cons a as ih =>
    intro hall
    rcases ih (fun x hx => hall x (List.mem_cons_of_mem _ hx)) with ⟨css, hcss, hflat⟩
    refine ⟨[] :: css, ?_, by simp [hflat]⟩
    rw [exceptMapM, hall a (List.mem_cons_self _ _), hcss]
    rfl

theorem foldl_dedup_mem (l : List String) :
    ∀ (acc : List String) (x : String),
      x ∈ l.foldl (fun acc x => if x ∈ acc then acc else acc ++ [x]) acc ↔
        x ∈ acc ∨ x ∈ l := by
  induction l with
  | nil => simp
  | cons a as ih =>
    intro acc x
    simp only [List.foldl_cons]
    by_cases ha : a ∈ acc
    · rw [if_pos ha, ih]
      constructor
      · rintro (h | h)
        · exact Or.inl h
        · exact Or.inr (List.mem_cons_of_mem _ h)
      · rintro (h | h)
        · exact Or.inl h
        · rcases List.mem_cons.mp h with rfl | h'
          · exact Or.inl ha
          · exact Or.inr h'
    · rw [if_neg ha, ih]
      simp [List.mem_append, List.mem_cons]
      tauto

theorem foldl_dedup_nodup (l : List String) :
    ∀ (acc : List String), acc.Nodup →
      (l.foldl (fun acc x => if x ∈ acc then acc else acc ++ [x]) acc).Nodup := by
  induction l with
  | nil => exact fun acc h => h
  | cons a as ih =>
    intro acc hacc
    simp only [List.foldl_cons]
    by_cases ha : a ∈ acc
    · rw [if_pos ha]; exact ih acc hacc
    · rw [if_neg ha]
      refine ih _ ?_
      simp [List.nodup_append, hacc, ha]

theorem mem_hsDedup (l : List String) (x : String) : x ∈ hsDedup l ↔ x ∈ l := by
  rw [hsDedup, foldl_dedup_mem]
  simp

theorem nodup_hsDedup (l : List String) : (hsDedup l).Nodup :=
  foldl_dedup_nodup l [] List.nodup_nil

theorem count_hsDedup (l : List String) (x : String) (hx : x ∈ l) :
    (hsDedup l).count x = 1 :=
  List.count_eq_one_of_mem (nodup_hsDedup l) ((mem_hsDedup l x).mpr hx)

theorem filterMap_numFilter (ws : List Node) :
    ws.filterMap numFilter = (ws.filterMap Node.num).filter (fun n => 1 ≤ n) := by
  induction ws with
  | nil => rfl
  | cons w rest ih =>
    cases hn : w.num with
    | none => simp [List.filterMap_cons, numFilter, hn, ih]
    | some n =>
      by_cases hlt : n < 1
      · have : ¬ (1 ≤ n) := by omega
        simp [List.filterMap_cons, numFilter, hn, hlt, this, ih]
      · have : (1 : Int) ≤ n := by omega
        simp [List.filterMap_cons, numFilter, hn, hlt, this, ih]

theorem workspaceDirectives_ok_nil {w : Node}
    (h : w.num = none ∨ ∃ n, w.num = some n ∧ n < 1) :
    workspaceDirectives w = .ok [] := by
  rcases h with h | ⟨n, hn, hlt⟩
  · rw [workspaceDirectives, h]
  · rw [workspaceDirectives, hn]
    simp [hlt]

theorem workspaceDirectives_ok_singleton {w : Node} {n : Int} {old : String}
    (hn : w.num = some n) (hge : ¬ n < 1) (hname : w.name = some old) :
    workspaceDirectives w =
      .ok [renameCmd old (full_name n (get_workspace_name w theLookup))] := by
  rw [workspaceDirectives, hn]
  simp [hge, hname]

theorem workspaceDirectives_missing {w : Node} {n : Int}
    (hn : w.num = some n) (hge : ¬ n < 1) (hname : w.name = none) :
    workspaceDirectives w = .error .missingName := by
  rw [workspaceDirectives, hn]
  simp [hge, hname]

theorem workspaceDirectives_ok_or_missing (w : Node) :
    (∃ v, workspaceDirectives w = .ok v) ∨ workspaceDirectives w = .error .missingName := by
  cases hn : w.num with
  | none => exact Or.inl ⟨[], workspaceDirectives_ok_nil (Or.inl hn)⟩
  | some n =>
    by_cases hlt : n < 1
    · exact Or.inl ⟨[], workspaceDirectives_ok_nil (Or.inr ⟨n, hn, hlt⟩)⟩
    · cases hname : w.name with
      | none => exact Or.inr (workspaceDirectives_missing hn hlt hname)
      | some old => exact Or.inl ⟨_, workspaceDirectives_ok_singleton hn hlt hname⟩

theorem workspaceDirectives_length {w : Node} {cs : List String}
    (h : workspaceDirectives w = .ok cs) :
    cs.length = (numFilter w).toList.length := by
  cases hn : w.num with
  | none =>
    rw [workspaceDirectives_ok_nil (Or.inl hn)] at h
    cases h
    simp [numFilter, hn]
  | some n =>
    by_cases hlt : n < 1
    · rw [workspaceDirectives_ok_nil (Or.inr ⟨n, hn, hlt⟩)] at h
      cases h
      simp [numFilter, hn, hlt]
    · cases hname : w.name with
      | none => rw [workspaceDirectives_missing hn hlt hname] at h; cases h
      | some old =>
        rw [workspaceDirectives_ok_singleton hn hlt hname] at h
        cases h
        simp [numFilter, hn, hlt]

theorem exceptMapM_directives_length :
    ∀ {ws : List Node} {css : List (List String)},
      exceptMapM workspaceDirectives ws = .ok css →
      css.flatten.length = (ws.filterMap numFilter).length := by
  intro ws
  induction ws with
  | nil => intro css h; cases h; rfl
  | cons w rest ih =>
    intro css h
    rw [exceptMapM] at h
    cases hfw : workspaceDirectives w with
    | error e => rw [hfw] at h; cases h
    | ok cs =>
      rw [hfw] at h
      cases hrest : exceptMapM workspaceDirectives rest with
      | error e => rw [hrest] at h; cases h
      | ok css' =>
        rw [hrest] at h
        simp only [Except.bind, pure, Except.pure] at h
        cases h
        have hlen := workspaceDirectives_length hfw
        rw [List.filterMap_cons]
        cases hnf : numFilter w with
        | none =>
          rw [hnf] at hlen
          simp only [List.flatten_cons, List.length_append, ih hrest]
          simp at hlen
          simp [hlen]
        | some n =>
          rw [hnf] at hlen
          simp only [List.flatten_cons, List.length_append, ih hrest]
          simp at hlen
          simp [hlen]
          omega

theorem exceptMapM_directives_pairs :
    ∀ {ws : List Node} {css : List (List String)},
      exceptMapM workspaceDirectives ws = .ok css →
      css.flatten = (ws.filterMap directivePair).map Prod.snd ∧
        ws.filterMap numFilter = (ws.filterMap directivePair).map Prod.fst := by
  intro ws
  induction ws with
  | nil => intro css h; cases h; exact ⟨rfl, rfl⟩
  | cons w rest ih =>
    intro css h
    rw [exceptMapM] at h
    cases hfw : workspaceDirectives w with
    | error e => rw [hfw] at h; cases h
    | ok cs =>
      rw [hfw] at h
      cases hrest : exceptMapM workspaceDirectives rest with
      | error e => rw [hrest] at h; cases h
      | ok css' =>
        rw [hrest] at h
        simp only [Except.bind, pure, Except.pure] at h
        cases h
        obtain ⟨ihflat, ihnums⟩ := ih hrest
        cases hn : w.num with
        | none =>
          rw [workspaceDirectives_ok_nil (Or.inl hn)] at hfw
          cases hfw
          simp [List.filterMap_cons, directivePair, numFilter, hn, ihflat, ihnums]
        | some n =>
          by_cases hlt : n < 1
          · rw [workspaceDirectives_ok_nil (Or.inr ⟨n, hn, hlt⟩)] at hfw
            cases hfw
            simp [List.filterMap_cons, directivePair, numFilter, hn, hlt, ihflat, ihnums]
          · cases hname : w.name with
            | none => rw [workspaceDirectives_missing hn hlt hname] at hfw; cases hfw
            | some old =>
              rw [workspaceDirectives_ok_singleton hn hlt hname] at hfw
              cases hfw
              simp [List.filterMap_cons, directivePair, numFilter, hn, hlt, hname,
                    ihflat, ihnums]

theorem mem_get_workspace_nodes {tree : Node} {ws : List Node}
    (h : get_workspace_nodes tree = .ok ws) (w : Node) :
    w ∈ ws ↔
      ∃ o ∈ tree.nodes, o.node_type = NodeType.Output ∧
        ∃ c ∈ o.nodes, c.node_type = NodeType.Con ∧
          w ∈ c.nodes ∧ w.node_type = NodeType.Workspace := by
  rw [get_workspace_nodes] at h
  by_cases hroot : tree.node_type = NodeType.Root
  · rw [if_pos hroot] at h
    cases h
    simp [get_nodes_of_type, List.mem_flatMap, List.mem_filter]
    tauto
  · rw [if_neg hroot] at h
    cases h

theorem ConDesc.nodes_ne_nil {c x : Node} (h : ConDesc c x) : c.nodes ≠ [] := by
  cases h with
  | child hmem _ => exact List.ne_nil_of_mem hmem
  | step hmem _ _ => exact List.ne_nil_of_mem hmem

theorem mem_get_leaf_content_nodes :
    ∀ node x, x ∈ get_leaf_content_nodes node ↔ ConDesc node x ∧ x.nodes = [] := by
  intro node
  induction node using Node.strongRec with
  | _ node ih =>
  intro x
  rw [get_leaf_content_nodes_def]
  simp only [List.mem_flatMap, get_nodes_of_type, List.mem_filter]
  constructor
  · rintro ⟨c, ⟨hcmem, hctype⟩, hx⟩
    simp only [decide_eq_true_eq] at hctype
    by_cases hleaf : c.nodes.length = 0
    · rw [if_pos hleaf] at hx
      rcases List.mem_singleton.mp hx with rfl
      exact ⟨ConDesc.child hcmem hctype, List.length_eq_zero.mp hleaf⟩
    · rw [if_neg hleaf] at hx
      rcases (ih c hcmem x).mp hx with ⟨hdesc, hxleaf⟩
      exact ⟨ConDesc.step hcmem hctype hdesc, hxleaf⟩
  · rintro ⟨hdesc, hxleaf⟩
    cases hdesc with
    | child hmem htype =>
      refine ⟨x, ⟨hmem, by simp [htype]⟩, ?_⟩
      rw [if_pos (by simp [hxleaf])]
      exact List.mem_singleton.mpr rfl
    | step hmem htype hdesc' =>
      rename_i c
      refine ⟨c, ⟨hmem, by simp [htype]⟩, ?_⟩
      rw [if_neg (by simpa using fun h => hdesc'.nodes_ne_nil (List.length_eq_zero.mp h))]
      exact (ih c hmem x).mpr ⟨hdesc', hxleaf⟩

theorem specSubtreeConLeaves_def (node : Node) :
    specSubtreeConLeaves node =
      node.nodes.flatMap
        (fun c =>
          (if c.node_type = NodeType.Con ∧ c.nodes.length = 0 then [c] else [])
            ++ specSubtreeConLeaves c) := by
  conv_lhs => rw [specSubtreeConLeaves]
  conv_rhs => rw [← List.attach_map_subtype_val node.nodes, List.flatMap_map]

theorem specConChainLeaves_def (node : Node) :
    specConChainLeaves node =
      node.nodes.flatMap
        (fun c =>
          if c.node_type = NodeType.Con then
            (if c.nodes.isEmpty then [c] else specConChainLeaves c)
          else []) := by
  conv_lhs => rw [specConChainLeaves]
  conv_rhs => rw [← List.attach_map_subtype_val node.nodes, List.flatMap_map]

theorem glcn_eq_specConChainLeaves (node : Node) :
    get_leaf_content_nodes node = specConChainLeaves node := by
  induction node using Node.strongRec with
  | _ node ih =>
  rw [get_leaf_content_nodes_def, specConChainLeaves_def, get_nodes_of_type]
  have key : ∀ (l : List Node),
      (∀ c ∈ l, get_leaf_content_nodes c = specConChainLeaves c) →
      (l.filter (fun n => n.node_type = NodeType.Con)).flatMap
          (fun n => if n.nodes.length = 0 then [n] else get_leaf_content_nodes n) =
        l.flatMap
          (fun c =>
            if c.node_type = NodeType.Con then
              (if c.nodes.isEmpty then [c] else specConChainLeaves c)
            else []) := by
    intro l
    induction l with
    | nil => intro _; rfl
    | cons c rest ihl =>
      intro hall
      have hc := hall c (List.mem_cons_self _ _)
      have hrest := ihl (fun x hx => hall x (List.mem_cons_of_mem _ hx))
      by_cases hcon : c.node_type = NodeType.Con
      · by_cases hleaf : c.nodes.isEmpty
        · have hnil : c.nodes = [] := List.isEmpty_iff.mp hleaf
          simp [List.filter_cons, hcon, hleaf, hnil, hrest]
        · have hlen : ¬ c.nodes.length = 0 := by
            intro h
            exact hleaf (List.isEmpty_iff.mpr (List.length_eq_zero.mp h))
          simp [List.filter_cons, hcon, hleaf, hlen, hrest, hc]
      · simp [List.filter_cons, hcon, hrest]
  exact key node.nodes ih

theorem glcn_ws2 : get_leaf_content_nodes ws2 = [leafFirefox] := by
  rw [get_leaf_content_nodes_def]
  simp [get_nodes_of_type, ws2, leafFirefox, Node.nodes, Node.node_type]

theorem gwn_ws2 : get_workspace_name ws2 theLookup = "F" := by
  rw [get_workspace_name, rawLabels, glcn_ws2]
  rfl

theorem glcn_wsN1 : get_leaf_content_nodes wsN1 = [] := by
  rw [get_leaf_content_nodes_def]
  rfl

theorem gwn_wsN1 : get_workspace_name wsN1 theLookup = "" := by
  rw [get_workspace_name, rawLabels, glcn_wsN1]
  rfl

theorem glcn_wsN2 : get_leaf_content_nodes wsN2 = [] := by
  rw [get_leaf_content_nodes_def]
  rfl

theorem gwn_wsN2 : get_workspace_name wsN2 theLookup = "" := by
  rw [get_workspace_name, rawLabels, glcn_wsN2]
  rfl

theorem glcn_wsFF : get_leaf_content_nodes wsFF = [leafFirefox, leafFirefox] := by
  rw [get_leaf_content_nodes_def]
  simp [get_nodes_of_type, wsFF, leafFirefox, Node.nodes, Node.node_type]

theorem rawLabels_wsFF : rawLabels wsFF theLookup = ["F", "F"] := by
  rw [rawLabels, glcn_wsFF]
  rfl

theorem dir_ws2 : workspaceDirectives ws2 = .ok [renameCmd "2" "2: F"] := by
  have h := workspaceDirectives_ok_singleton (show ws2.num = some 2 from rfl)
    (by decide) (show ws2.name = some "2" from rfl)
  rw [gwn_ws2] at h
  exact h

theorem dir_wsN1 : workspaceDirectives wsN1 = .ok [renameCmd "1" "1"] := by
  have h := workspaceDirectives_ok_singleton (show wsN1.num = some 1 from rfl)
    (by decide) (show wsN1.name = some "1" from rfl)
  rw [gwn_wsN1] at h
  exact h

theorem dir_wsN2 : workspaceDirectives wsN2 = .ok [renameCmd "2" "2"] := by
  have h := workspaceDirectives_ok_singleton (show wsN2.num = some 2 from rfl)
    (by decide) (show wsN2.name = some "2" from rfl)
  rw [gwn_wsN2] at h
  exact h

theorem plan_tree3 : get_workspace_rename_commands tree3 =
    .ok ["rename workspace \"2\" to \"2: F\""] := by
  have hws : get_workspace_nodes tree3 = .ok [ws2] := rfl
  simp [get_workspace_rename_commands, hws, exceptMapM, dir_ws2, Except.bind, bind,
        Except.map, Functor.map]
  rfl

theorem plan_treeEq : get_workspace_rename_commands treeEq = .ok [renameCmd "1" "1"] := by
  have hws : get_workspace_nodes treeEq = .ok [wsN1] := rfl
  simp [get_workspace_rename_commands, hws, exceptMapM, dir_wsN1, Except.bind, bind,
        Except.map, Functor.map]
  rfl

theorem plan_tree21 : get_workspace_rename_commands tree21 =
    .ok [renameCmd "2" "2", renameCmd "1" "1"] := by
  have hws : get_workspace_nodes tree21 = .ok [wsN2, wsN1] := rfl
  simp [get_workspace_rename_commands, hws, exceptMapM, dir_wsN1, dir_wsN2,
        Except.bind, bind, Except.map, Functor.map]
  rfl

theorem plan_tree12 : get_workspace_rename_commands tree12 =
    .ok [renameCmd "1" "1", renameCmd "2" "2"] := by
  have hws : get_workspace_nodes tree12 = .ok [wsN1, wsN2] := rfl
  simp [get_workspace_rename_commands, hws, exceptMapM, dir_wsN1, dir_wsN2,
        Except.bind, bind, Except.map, Functor.map]
  rfl

/-- C1 (amended): a successfully computed plan consists of the directives
in the order the workspaces are visited by the
Root → Output → Con → Workspace traversal — the plan equals the
traversal-ordered sequence of one directive per numbered-and-named
workspace — and the producing workspace numbers are the traversal's
number sequence restricted to `num ≥ 1`; they are strictly ascending
whenever that restricted sequence is ascending, which the code does not
otherwise guarantee. -/
theorem c1_plan_order (tree : Node) (ws : List Node) (plan : List String)
    (h : get_workspace_nodes tree = .ok ws)
    (hplan : get_workspace_rename_commands tree = .ok plan) :
    plan = (ws.filterMap directivePair).map Prod.snd ∧
      planNums tree = .ok ((ws.filterMap directivePair).map Prod.fst) ∧
      ((ws.filterMap numFilter).Sorted (· < ·) →
        ((ws.filterMap directivePair).map Prod.fst).Sorted (· < ·)) := by
  rw [get_workspace_rename_commands, h] at hplan
  simp only [bind, Except.bind] at hplan
  cases hm : exceptMapM workspaceDirectives ws with
  | error e =>
    rw [hm] at hplan
    simp at hplan
  | ok css =>
    rw [hm] at hplan
    simp only [pure, Except.pure, Except.ok.injEq] at hplan
    obtain ⟨hflat, hnums⟩ := exceptMapM_directives_pairs hm
    have hpn : planNums tree = .ok (ws.filterMap numFilter) := by
      rw [planNums, h]
      rfl
    refine ⟨by rw [← hplan, hflat], ?_, ?_⟩
    · rw [hpn, hnums]
    · intro hs
      rw [← hnums]
      exact hs

/-- C1 counterexample: in `tree21` the traversal meets workspace 2 before
workspace 1, so the plan itself is the directive for workspace 2 followed
by the directive for workspace 1, and the producing numbers `[2, 1]` are
not strictly ascending — the plan is not ordered ascending by workspace
number. -/
theorem c1_counterexample :
    get_workspace_rename_commands tree21 =
        .ok [renameCmd "2" "2", renameCmd "1" "1"] ∧
      planNums tree21 = .ok [2, 1] ∧
      ¬ ([2, 1] : List Int).Sorted (· < ·) := by
  refine ⟨plan_tree21, rfl, by decide⟩

/-- Witness for `c1_plan_order` at the concrete tree `tree12` and its
concretely computed plan. -/
theorem c1_witness :
    [renameCmd "1" "1", renameCmd "2" "2"] =
        (([wsN1, wsN2].filterMap directivePair).map Prod.snd) ∧
      planNums tree12 = .ok (([wsN1, wsN2].filterMap directivePair).map Prod.fst) ∧
      (([wsN1, wsN2].filterMap numFilter).Sorted (· < ·) →
        (([wsN1, wsN2].filterMap directivePair).map Prod.fst).Sorted (· < ·)) :=
  c1_plan_order tree12 [wsN1, wsN2] [renameCmd "1" "1", renameCmd "2" "2"] rfl
    plan_tree12

/-- C2 (amended): for every numbered workspace with a present name the
planner emits a rename directive from the current name to the computed
new name, unconditionally — there is no skip when the two are already
equal. -/
theorem c2_directive_emitted (tree : Node) (ws : List Node) (w : Node)
    (n : Int) (old : String) (plan : List String)
    (h : get_workspace_nodes tree = .ok ws) (hw : w ∈ ws)
    (hn : w.num = some n) (hge : ¬ n < 1) (hname : w.name = some old)
    (hplan : get_workspace_rename_commands tree = .ok plan) :
    renameCmd old (full_name n (get_workspace_name w theLookup)) ∈ plan := by
  rw [get_workspace_rename_commands, h] at hplan
  simp only [bind, Except.bind] at hplan
  cases hm : exceptMapM workspaceDirectives ws with
  | error e =>
    rw [hm] at hplan
    simp at hplan
  | ok css =>
    rw [hm] at hplan
    simp only [pure, Except.pure, Except.ok.injEq] at hplan
    rcases exceptMapM_ok_forall hm w hw with ⟨cs, hcs, hwcs⟩
    rw [workspaceDirectives_ok_singleton hn hge hname] at hwcs
    cases hwcs
    rw [← hplan]
    exact List.mem_flatten.mpr ⟨_, hcs, List.mem_singleton.mpr rfl⟩

/-- C2 counterexample: in `treeEq` workspace 1 is windowless and already
named "1", the computed new name; the claim says the directive is then
skipped (so the plan would be empty), but the code still emits the no-op
directive renaming "1" to "1" — a directive whose old and new names are
equal. -/
theorem c2_counterexample :
    get_workspace_rename_commands treeEq = .ok [renameCmd "1" "1"] ∧
      get_workspace_rename_commands treeEq ≠ .ok [] := by
  refine ⟨plan_treeEq, ?_⟩
  rw [plan_treeEq]
  simp

/-- Witness for `c2_directive_emitted` at the concrete tree `treeEq`. -/
theorem c2_witness :
    renameCmd "1" (full_name 1 (get_workspace_name wsN1 theLookup)) ∈ [renameCmd "1" "1"] :=
  c2_directive_emitted treeEq [wsN1] wsN1 1 "1" [renameCmd "1" "1"] rfl
    (List.mem_singleton.mpr rfl) rfl (by decide) rfl plan_treeEq

/-- C3: on the Root → Output → Con → Workspace(num 2, name "2") tree whose
workspace holds a single Firefox-classed leaf `Con` node, the planner
returns exactly the single directive renaming "2" to "2: F". -/
theorem c3_end_to_end :
    get_workspace_rename_commands tree3 = .ok ["rename workspace \"2\" to \"2: F\""] :=
  plan_tree3

/-- C4: a workspace whose `num` is absent or `< 1` contributes no
directive regardless of its contents, and a tree whose traversal yields
no numbered workspace produces the empty plan. -/
theorem c4_unnumbered_skipped :
    (∀ w : Node, (w.num = none ∨ ∃ n, w.num = some n ∧ n < 1) →
      workspaceDirectives w = .ok []) ∧
    (∀ tree ws, get_workspace_nodes tree = .ok ws →
      (∀ w ∈ ws, ∀ n, w.num = some n → n < 1) →
      get_workspace_rename_commands tree = .ok []) := by
  constructor
  · exact fun w h => workspaceDirectives_ok_nil h
  · intro tree ws h hz
    have hall : ∀ w ∈ ws, workspaceDirectives w = .ok [] := by
      intro w hw
      cases hn : w.num with
      | none => exact workspaceDirectives_ok_nil (Or.inl hn)
      | some n => exact workspaceDirectives_ok_nil (Or.inr ⟨n, hn, hz w hw n hn⟩)
    rcases exceptMapM_nil_flatten hall with ⟨css, hcss, hflat⟩
    rw [get_workspace_rename_commands, h]
    simp only [bind, Except.bind, hcss, pure, Except.pure, hflat]

/-- Witness for `c4_unnumbered_skipped` at `treeZero`, whose only
workspace has `num = 0` yet contains a Firefox window. -/
theorem c4_witness : get_workspace_rename_commands treeZero = .ok [] :=
  c4_unnumbered_skipped.2 treeZero [ws0] rfl
    (by
      intro w hw n hn
      rcases List.mem_singleton.mp hw with rfl
      cases hn
      decide)

theorem string_eq_empty_of_length_eq_zero {s : String} (h : s.length = 0) : s = "" := by
  cases s with
  | mk data =>
    simp only [String.length] at h
    rw [List.length_eq_zero] at h
    rw [h]

/-- C5: the computed new name of a numbered workspace is `toString num`
when the derived label is empty, and `"num: label"` when it is not; in
particular the derived label is empty whenever no leaf content node's
class resolves through the lookup table. -/
theorem c5_new_name_format :
    (∀ (w : Node) (n : Int) (old : String),
      w.num = some n → ¬ n < 1 → w.name = some old →
      workspaceDirectives w = .ok [renameCmd old
        (if get_workspace_name w theLookup = "" then toString n
         else toString n ++ ": " ++ get_workspace_name w theLookup)]) ∧
    (∀ (w : Node) (lookup : Lookup),
      (∀ ln ∈ get_leaf_content_nodes w,
        (ln.window_properties.bind (fun wp => wp.«class»)).bind lookup.get = none) →
      get_workspace_name w lookup = "") := by
  constructor
  · intro w n old hn hge hname
    rw [workspaceDirectives_ok_singleton hn hge hname]
    have : full_name n (get_workspace_name w theLookup) =
        (if get_workspace_name w theLookup = "" then toString n
         else toString n ++ ": " ++ get_workspace_name w theLookup) := by
      rw [full_name]
      by_cases hemp : get_workspace_name w theLookup = ""
      · simp [hemp]
      · have hpos : (get_workspace_name w theLookup).length > 0 := by
          rcases Nat.eq_zero_or_pos (get_workspace_name w theLookup).length with h0 | h0
          · exact absurd (string_eq_empty_of_length_eq_zero h0) hemp
          · exact h0
        simp [hpos, hemp]
    rw [this]
  · intro w lookup hnone
    rw [get_workspace_name]
    have : rawLabels w lookup = [] := by
      rw [rawLabels]
      exact List.filterMap_eq_nil_iff.mpr hnone
    rw [this]
    rfl

/-- Witness for `c5_new_name_format` at the concrete workspace `ws2`. -/
theorem c5_witness :
    workspaceDirectives ws2 = .ok [renameCmd "2"
      (if get_workspace_name ws2 theLookup = "" then toString (2 : Int)
       else toString (2 : Int) ++ ": " ++ get_workspace_name ws2 theLookup)] :=
  c5_new_name_format.1 ws2 2 "2" rfl (by decide) rfl

/-- C6: the label set a workspace's name is built from is deduplicated —
the joined sequence contains every raw label, each distinct label exactly
once — and the distinct labels are joined with a single space. -/
theorem c6_label_dedup (w : Node) (lookup : Lookup) :
    get_workspace_name w lookup =
        String.intercalate " " (hsDedup (rawLabels w lookup)) ∧
      (∀ x, x ∈ hsDedup (rawLabels w lookup) ↔ x ∈ rawLabels w lookup) ∧
      (∀ x ∈ rawLabels w lookup, (hsDedup (rawLabels w lookup)).count x = 1) :=
  ⟨rfl, fun x => mem_hsDedup _ x, fun x hx => count_hsDedup _ x hx⟩

/-- Witness for `c6_label_dedup`: in `wsFF` two Firefox leaves both map
to "F", yet the deduplicated label sequence counts "F" once. -/
theorem c6_witness : (hsDedup (rawLabels wsFF theLookup)).count "F" = 1 :=
  (c6_label_dedup wsFF theLookup).2.2 "F" (by rw [rawLabels_wsFF]; decide)

/-- C7 (amended): `get_leaf_content_nodes` returns exactly — as a list,
with order and multiplicity — the `Con`-typed childless nodes collected
depth-first over the children in their original order while descending
only through `Con`-typed children (`specConChainLeaves`); equivalently,
its members are exactly the childless nodes reachable through a chain of
`Con`-typed children, not every `Con`-typed childless node of the
subtree; and it returns `[]` for a node with no children. -/
theorem c7_leaf_collection (node : Node) :
    get_leaf_content_nodes node = specConChainLeaves node ∧
      (∀ x, x ∈ get_leaf_content_nodes node ↔ ConDesc node x ∧ x.nodes = []) ∧
      (node.nodes = [] → get_leaf_content_nodes node = []) := by
  refine ⟨glcn_eq_specConChainLeaves node, mem_get_leaf_content_nodes node, ?_⟩
  intro h
  rw [get_leaf_content_nodes_def, get_nodes_of_type, h]
  rfl

/-- C7 counterexample: in `wsHidden` the Firefox leaf is a `Con`-typed
childless node of the subtree (it is listed by the spec-side subtree
collector), but it sits below a `FloatingCon` child, so
`get_leaf_content_nodes` does not return it. -/
theorem c7_counterexample :
    get_leaf_content_nodes wsHidden = [] ∧
      specSubtreeConLeaves wsHidden = [leafFirefox] := by
  constructor
  · rw [get_leaf_content_nodes_def]
    rfl
  · rw [specSubtreeConLeaves_def]
    simp only [wsHidden, Node.nodes, List.flatMap_cons, List.flatMap_nil]
    rw [specSubtreeConLeaves_def]
    simp only [Node.nodes, List.flatMap_cons, List.flatMap_nil]
    rw [specSubtreeConLeaves_def]
    simp [leafFirefox, Node.nodes, Node.node_type]

/-- Witness for `c7_leaf_collection` at the childless node `leafFirefox`. -/
theorem c7_witness : get_leaf_content_nodes leafFirefox = [] :=
  (c7_leaf_collection leafFirefox).2.2 rfl

/-- C8: `get_workspace_nodes` fails with the `InvalidTree` fault on every
non-Root node, and on a Root node yields exactly the Workspace-typed
nodes reachable via an Output-typed child then a Con-typed child. -/
theorem c8_workspace_nodes (n : Node) :
    (n.node_type ≠ NodeType.Root →
        get_workspace_nodes n = .error .invalidTree) ∧
      (n.node_type = NodeType.Root → ∃ ws, get_workspace_nodes n = .ok ws ∧
        ∀ w, w ∈ ws ↔
          ∃ o ∈ n.nodes, o.node_type = NodeType.Output ∧
            ∃ c ∈ o.nodes, c.node_type = NodeType.Con ∧
              w ∈ c.nodes ∧ w.node_type = NodeType.Workspace) := by
  constructor
  · intro h
    rw [get_workspace_nodes, if_neg h]
  · intro h
    have hok : get_workspace_nodes n =
        .ok (((get_nodes_of_type n NodeType.Output).flatMap
                (fun o => get_nodes_of_type o NodeType.Con)).flatMap
              (fun c => get_nodes_of_type c NodeType.Workspace)) := by
      rw [get_workspace_nodes, if_pos h]
    exact ⟨_, hok, fun w => mem_get_workspace_nodes hok w⟩

/-- Witness for `c8_workspace_nodes` at the non-Root node `ws2`. -/
theorem c8_witness : get_workspace_nodes ws2 = .error .invalidTree :=
  (c8_workspace_nodes ws2).1 (by decide)

/-- C10: a snapshot containing a numbered (`num ≥ 1`) workspace whose
optional `name` is absent makes the planner panic on the `unwrap`
(modelled as the `missingName` fault) instead of returning a plan. -/
theorem c10_missing_name_panics (tree : Node) (ws : List Node) (w : Node)
    (n : Int)
    (h : get_workspace_nodes tree = .ok ws) (hw : w ∈ ws)
    (hn : w.num = some n) (hge : 1 ≤ n) (hname : w.name = none) :
    get_workspace_rename_commands tree = .error .missingName := by
  have hge' : ¬ n < 1 := by omega
  have hm : exceptMapM workspaceDirectives ws = .error .missingName :=
    exceptMapM_error_of_mem (fun x _ => workspaceDirectives_ok_or_missing x)
      w hw (workspaceDirectives_missing hn hge' hname)
  rw [get_workspace_rename_commands, h]
  simp only [bind, Except.bind, hm]

/-- Witness for `c10_missing_name_panics` at `treeNoName`. -/
theorem c10_witness :
    get_workspace_rename_commands treeNoName = .error .missingName :=
  c10_missing_name_panics treeNoName [wsAnon] wsAnon 1 rfl
    (List.mem_singleton.mpr rfl) rfl (by decide) rfl
